import Mathlib

/-
Shallow embedding of the declaration scanner and type resolver of
src/src/parser.rs (crate amenhotep).

Rust strings are modelled as List Char; a file is a List (List Char) of
lines, exactly what BufRead::lines yields (line terminators stripped, so a
line never contains a newline character).  Rust functions that can panic
are modelled with Option (none = panic).  The scanner, whose inner storage
loop can run forever (see scanGo below), returns a three-valued outcome:
ok, panic, or hang.
-/

/-- ASCII model of Rust char::is_whitespace as used by str::trim.  All
inputs of interest are ASCII; the four chars here are the ASCII whitespace
handled identically by Rust and by this model. -/
def isWS (c : Char) : Bool := c == ' ' || c == '\t' || c == '\n' || c == '\r'

/-- List-of-chars version of str::starts_with for a literal pattern. -/
def isPrefixL : List Char → List Char → Bool
  | [], _ => true
  | _ :: _, [] => false
  | p :: ps, b :: bs => p == b && isPrefixL ps bs

/-- List-of-chars version of str::contains for a literal pattern. -/
def containsL (pat : List Char) : List Char → Bool
  | [] => isPrefixL pat []
  | c :: rest => isPrefixL pat (c :: rest) || containsL pat rest

/-- Core of str::split on a literal pattern: leftmost, non-overlapping,
empty segments kept.  The Nat argument counts pattern characters still to
be skipped after a match (the head character of a match is consumed by the
cons pattern, the remaining sep.length - 1 by the skip counter), which
keeps the recursion structural in the list. -/
def splitCore (sep : List Char) : Nat → List Char → List (List Char)
  | _, [] => [[]]
  | skip+1, _ :: rest => splitCore sep skip rest
  | 0, c :: rest =>
    if isPrefixL sep (c :: rest) && !sep.isEmpty then
      [] :: splitCore sep (sep.length - 1) rest
    else
      match splitCore sep 0 rest with
      | [] => [[c]]
      | seg :: segs => (c :: seg) :: segs

/-- str::split(sep) collected into a list of segments. -/
def splitOnL (sep s : List Char) : List (List Char) := splitCore sep 0 s

/-- str::trim (whitespace stripped from both ends). -/
def trimL (s : List Char) : List Char :=
  ((s.dropWhile isWS).reverse.dropWhile isWS).reverse

/-- str::trim_start_matches for a single char (strips every leading c). -/
def dropLeadingCh (c : Char) (s : List Char) : List Char := s.dropWhile (· == c)

/-- str::trim_end_matches for a single char (strips every trailing c). -/
def dropTrailingCh (c : Char) (s : List Char) : List Char :=
  (s.reverse.dropWhile (· == c)).reverse

/-- Core of str::replace: every leftmost non-overlapping occurrence of pat
is replaced by rep.  Skip counter as in splitCore. -/
def replaceCore (pat rep : List Char) : Nat → List Char → List Char
  | _, [] => []
  | skip+1, _ :: rest => replaceCore pat rep skip rest
  | 0, c :: rest =>
    if isPrefixL pat (c :: rest) && !pat.isEmpty then
      rep ++ replaceCore pat rep (pat.length - 1) rest
    else c :: replaceCore pat rep 0 rest

/-- String::replace(pat, rep). -/
def replaceAllL (pat rep s : List Char) : List Char := replaceCore pat rep 0 s

/-- The characters strictly before the last occurrence of c, or none if c
does not occur.  Used to model the greedy regex tail (see matchAt). -/
def lastSplitBefore (c : Char) : List Char → Option (List Char)
  | [] => none
  | x :: rest =>
    match lastSplitBefore c rest with
    | some pre => some (x :: pre)
    | none => if x == c then some [] else none

/-- Iterator::last with a default (split never yields an empty list, so the
default is never used by the callers below). -/
def lastOfD (d : List Char) : List (List Char) → List Char
  | [] => d
  | [x] => x
  | _ :: rest => lastOfD d rest

/-- enum CairoType of parser.rs. -/
inductive CairoType
  | felt252
  | contractAddress
  | u8
  | u16
  | u32
  | u64
  | u128
  | u256
  | legacyMap (key value : CairoType)
deriving DecidableEq

/-- The literal "LegacyMap" that CairoType::from splits on. -/
def legacyMapMarker : List Char := "LegacyMap".toList

/-- Processing CairoType::from applies to each segment produced by
value.split("LegacyMap"): trim, then trim_start_matches of the angle
bracket opening char, then trim_end_matches of the closing one. -/
def stripSeg (s : List Char) : List Char :=
  dropTrailingCh '>' (dropLeadingCh '<' (trimL s))

/-- One unfolding of impl From of String for CairoType (parser.rs lines
104-152), parametrised by the recursive occurrence.  The input is trimmed,
compared against the eight primitive tokens by literal equality, and a
token starting with "LegacyMap" is split on that literal; the first two
segments (value.next() called twice, unwrap modelled by the catch-all
returning none) are stripped and recursively resolved.  Anything else
panics ("Unknown type"), modelled as none. -/
def fromTokenBody (rec : List Char → Option CairoType) (t : List Char) :
    Option CairoType :=
  if trimL t = "felt252".toList then some .felt252
  else if trimL t = "ContractAddress".toList then some .contractAddress
  else if trimL t = "u8".toList then some .u8
  else if trimL t = "u16".toList then some .u16
  else if trimL t = "u32".toList then some .u32
  else if trimL t = "u64".toList then some .u64
  else if trimL t = "u128".toList then some .u128
  else if trimL t = "u256".toList then some .u256
  else if isPrefixL legacyMapMarker (trimL t) then
    match splitOnL legacyMapMarker (trimL t) with
    | s0 :: s1 :: _ =>
      match rec (stripSeg s0), rec (stripSeg s1) with
      | some kty, some vty => some (.legacyMap kty vty)
      | _, _ => none
    | _ => none
  else none

/-- Fuelled fixpoint of fromTokenBody.  The recursion of CairoType::from
descends into split segments, which are strictly shorter than the input
(fromTokenF_stable below proves fuel irrelevance above the input length),
so length + 1 fuel computes the Rust function exactly. -/
def fromTokenF : Nat → List Char → Option CairoType
  | 0, _ => none
  | f+1, t => fromTokenBody (fromTokenF f) t

/-- CairoType::from(String): some ty on success, none where Rust panics. -/
def CairoType.fromToken (t : List Char) : Option CairoType :=
  fromTokenF (t.length + 1) t

/-- enum PostgresType of parser.rs. -/
inductive PostgresType
  | string
  | int
  | float
  | bool
deriving DecidableEq

/-- impl From of str for PostgresType (parser.rs lines 280-288): the match
sends "ContractAddress" and "u256" to String and the wildcard arm sends
everything else to String as well. -/
def PostgresType.fromToken (v : List Char) : PostgresType :=
  if v = "ContractAddress".toList then .string
  else if v = "u256".toList then .string
  else .string

/-- struct CairoArgument (field r#type rendered here as ptype). -/
structure CairoArgument where
  name : List Char
  ptype : PostgresType
deriving DecidableEq

/-- The literal ": " that CairoArgument::from splits on. -/
def colonSpaceSep : List Char := ": ".toList

/-- The literal ", " that CairoEvent::from splits the argument list on. -/
def commaSpaceSep : List Char := ", ".toList

/-- impl From of str for CairoArgument (parser.rs lines 312-320): the token
is split on ": "; v[0] is the name and v[1] (the second segment) feeds
PostgresType::from.  Fewer than two segments means the v[1] index panics,
modelled as none. -/
def CairoArgument.fromToken (value : List Char) : Option CairoArgument :=
  match splitOnL colonSpaceSep value with
  | n :: ty :: _ => some ⟨n, PostgresType.fromToken ty⟩
  | _ => none

/-- struct CairoEvent. -/
structure CairoEvent where
  name : List Char
  arguments : List CairoArgument
  definition_at : Nat
  emitted_at : List Nat
deriving DecidableEq

/-- CairoEvent::definined_at (sic) setter. -/
def CairoEvent.defininedAt (ev : CairoEvent) (line : Nat) : CairoEvent :=
  { ev with definition_at := line }

/-- The regex class [a-zA-Z] (ASCII letters only, as in the regex crate). -/
def isAsciiAlpha (c : Char) : Bool :=
  ('a' ≤ c && c ≤ 'z') || ('A' ≤ c && c ≤ 'Z')

/-- Longest leading run of [a-zA-Z] characters paired with the remainder:
the behaviour of a greedy [a-zA-Z]+ at a fixed position. -/
def takeLetters : List Char → List Char × List Char
  | [] => ([], [])
  | c :: rest =>
    if isAsciiAlpha c then
      (c :: (takeLetters rest).1, (takeLetters rest).2)
    else ([], c :: rest)

/-- The literal "fn " opening the event regex. -/
def fnSpaceMarker : List Char := "fn ".toList

/-- Whether the regex (fn )(?<fn_name>[a-zA-Z]+)\((?<args>.*)\) matches at
the start of s, returning the fn_name and args captures.  At a fixed
position the match is forced: the literal "fn ", then a maximal nonempty
letter run (backtracking the greedy [a-zA-Z]+ cannot help because the
character before the candidate open paren would be a letter), then the
open paren, then args reaching greedily to the last close paren of the
remainder (a line contains no newline, so the dot matches every remaining
character). -/
def matchAt (s : List Char) : Option (List Char × List Char) :=
  if isPrefixL fnSpaceMarker s then
    if (takeLetters (List.drop 3 s)).1 = [] then none
    else
      match (takeLetters (List.drop 3 s)).2 with
      | '(' :: rest3 =>
        match lastSplitBefore ')' rest3 with
        | some args => some ((takeLetters (List.drop 3 s)).1, args)
        | none => none
      | _ => none
  else none

/-- Regex::captures: the leftmost position where the pattern matches. -/
def findEventMatch : List Char → Option (List Char × List Char)
  | [] => none
  | c :: rest =>
    match matchAt (c :: rest) with
    | some r => some r
    | none => findEventMatch rest

/-- Collecting the mapped argument tokens; any panicking token (none)
aborts, as the Rust panic would. -/
def argsOf : List (List Char) → Option (List CairoArgument)
  | [] => some []
  | t :: rest =>
    match CairoArgument.fromToken t, argsOf rest with
    | some a, some l => some (a :: l)
    | _, _ => none

/-- impl From of String for CairoEvent (parser.rs lines 328-347): captures
of the event regex (unwrap panic when there is no match), then the args
capture split on ", " and each token converted; definition_at and
emitted_at come from Default::default(). -/
def CairoEvent.fromLine (l : List Char) : Option CairoEvent :=
  match findEventMatch l with
  | none => none
  | some (nm, args) =>
    match argsOf (splitOnL commaSpaceSep args) with
    | none => none
    | some arglist => some ⟨nm, arglist, 0, []⟩

/-- One storage buffer line of CairoStorage::from (parser.rs lines 80-102):
trim, split on ":", take 2; v[0] is the field name, v[1] feeds
CairoType::from.  A line whose split has fewer than two segments (no colon
present) hits the v[1] index panic, modelled as none. -/
def storageField (line : List Char) : Option (List Char × CairoType) :=
  match List.take 2 (splitOnL [':'] (trimL line)) with
  | k :: v :: _ =>
    match CairoType.fromToken (trimL v) with
    | some ty => some (trimL k, ty)
    | none => none
  | _ => none

/-- impl From of Vec String for CairoStorage: every buffer line is
converted; the first panic aborts.  (The Rust constructor then discards
the collected fields and stores an empty map, so only the panic behaviour
is observable downstream; the field list is kept here for inspection.) -/
def CairoStorage.fromLines : List (List Char) → Option (List (List Char × CairoType))
  | [] => some []
  | l :: rest =>
    match storageField l, CairoStorage.fromLines rest with
    | some f, some fs => some (f :: fs)
    | _, _ => none

/-- The marker substring opening a storage block. -/
def structStorageMarker : List Char := "struct Storage".toList

/-- The marker substring announcing an event signature on the next line. -/
def eventMarker : List Char := "#[event]".toList

/-- The closing brace char the storage drain loop looks for. -/
def closeBraceMarker : List Char := "\x7d".toList

/-- Scanner mode: normal line scanning, draining a storage block (pending
holds the line that opened the block, still owed its event-marker check
once the block closes; buf is storage_buf), or consuming the line after an
event marker as a signature. -/
inductive ScanMode
  | normal
  | drain (pending : List Char) (buf : List (List Char))
  | expectSig
deriving DecidableEq

/-- Outcome of a scan: the event list of the produced unit, a panic, or
divergence (the unterminated-storage infinite loop). -/
inductive ScanOutcome
  | ok (events : List CairoEvent)
  | panic
  | hang
deriving DecidableEq

/-- The line loop of parse_cairo_file (parser.rs lines 154-199).  k is
line_nr (count of lines consumed so far), sdone is storage.is_some().
A line containing "struct Storage" with storage still none enters the
drain mode; drained lines are buffered until one contains the closing
brace, at which point the buffer (excluding that line) is converted - a
conversion panic aborts - and the pending opening line finally gets its
event-marker check.  Reaching end of input while draining models the Rust
inner loop (while storage.is_none with an exhausted iterator) spinning
forever: hang.  A line containing the event marker makes the next line a
signature line: parsed via CairoEvent::from (panic aborts), stamped with
definined_at(line_nr) after the increment for the signature line, and
appended.  A marker on the final line finds no next line and is ignored. -/
def scanGo (k : Nat) (sdone : Bool) (mode : ScanMode) (evs : List CairoEvent) :
    List (List Char) → ScanOutcome
  | [] =>
    match mode with
    | .drain _ _ => .hang
    | _ => .ok evs
  | l :: rest =>
    match mode with
    | .drain pending buf =>
      if containsL closeBraceMarker l then
        match CairoStorage.fromLines buf with
        | none => .panic
        | some _ =>
          if containsL eventMarker pending then
            scanGo (k+1) true .expectSig evs rest
          else
            scanGo (k+1) true .normal evs rest
      else
        scanGo (k+1) sdone (.drain pending (buf ++ [l])) evs rest
    | .expectSig =>
      match CairoEvent.fromLine l with
      | none => .panic
      | some ev =>
        scanGo (k+1) sdone .normal (evs ++ [ev.defininedAt (k+1)]) rest
    | .normal =>
      if containsL structStorageMarker l && !sdone then
        scanGo (k+1) sdone (.drain l []) evs rest
      else if containsL eventMarker l then
        scanGo (k+1) sdone .expectSig evs rest
      else
        scanGo (k+1) sdone .normal evs rest

/-- parse_cairo_file restricted to its observable core: the scan of the
line sequence of one file. -/
def parseCairoLines (ls : List (List Char)) : ScanOutcome :=
  scanGo 0 false .normal [] ls

/-- capitalize (parser.rs lines 230-236): first char uppercased (Rust
char::to_uppercase, which on ASCII yields the single char Char.toUpper
yields here), rest unchanged. -/
def capitalize : List Char → List Char
  | [] => []
  | c :: rest => c.toUpper :: rest

/-- The literal ".cairo" removed by FileDomain::new. -/
def dotCairoExt : List Char := ".cairo".toList

/-- FileDomain::new name derivation (parser.rs lines 206-228): the path is
split on "/", the last segment taken, every occurrence of ".cairo"
removed by String::replace, and the result capitalized. -/
def fileDomainName (path : List Char) : List Char :=
  capitalize (replaceAllL dotCairoExt [] (lastOfD [] (splitOnL ['/'] path)))

/-- struct FileDomain. -/
structure FileDomain where
  name : List Char
  events : List CairoEvent
deriving DecidableEq

/-- Outcome of parse_cairo_file including the unit. -/
inductive ParseOutcome
  | ok (fd : FileDomain)
  | panic
  | hang
deriving DecidableEq

/-- parse_cairo_file: FileDomain::new at entry, then the line scan. -/
def parseCairoFile (path : List Char) (ls : List (List Char)) : ParseOutcome :=
  match parseCairoLines ls with
  | .ok evs => .ok ⟨fileDomainName path, evs⟩
  | .panic => .panic
  | .hang => .hang

/-- Modelled from the spec: the claim C8 speaks of the file stem, "last
path component without the extension", which is Rust Path::file_stem: the
part of the last component before its final dot, except that a lone
leading dot does not start an extension.  This spec-side definition exists
only to compare the claimed name against the implemented one. -/
def specFileStem (path : List Char) : List Char :=
  match lastSplitBefore '.' (lastOfD [] (splitOnL ['/'] path)) with
  | none => lastOfD [] (splitOnL ['/'] path)
  | some pre => if pre = [] then lastOfD [] (splitOnL ['/'] path) else pre

/- Helper lemmas about the string primitives. -/

theorem splitCore_ne_nil (sep : List Char) :
    ∀ (skip : Nat) (s : List Char), splitCore sep skip s ≠ []
  | _, [] => by simp [splitCore]
  | skip+1, _ :: rest => by
    simpa [splitCore] using splitCore_ne_nil sep skip rest
  | 0, c :: rest => by
    simp only [splitCore]
    split
    · simp
    · split
      · simp
      · simp

theorem isPrefixL_append_self (p r : List Char) : isPrefixL p (p ++ r) = true := by
  induction p with
  | nil => simp [isPrefixL]
  | cons c cs ih => simp [isPrefixL, ih]

theorem isPrefixL_stable (pat : List Char) :
    ∀ (s u : List Char), pat.length ≤ s.length →
      isPrefixL pat (s ++ u) = isPrefixL pat s := by
  induction pat with
  | nil => intro s u _; simp [isPrefixL]
  | cons p ps ih =>
    intro s u h
    cases s with
    | nil => simp at h
    | cons a as =>
      simp only [List.cons_append, isPrefixL]
      rw [show as.append u = as ++ u from rfl, ih as u (by simpa using h)]

theorem isEmpty_false_of_ne_nil {sep : List Char} (h : sep ≠ []) :
    sep.isEmpty = false := by
  cases sep with
  | nil => exact absurd rfl h
  | cons a l => rfl

theorem splitCore_not_contains (sep : List Char) (hsep : sep ≠ []) :
    ∀ s : List Char, containsL sep s = false → splitCore sep 0 s = [s]
  | [], _ => by simp [splitCore]
  | c :: rest, h => by
    have h1 : isPrefixL sep (c :: rest) = false := by
      cases hp : isPrefixL sep (c :: rest) <;> simp_all [containsL]
    have h2 : containsL sep rest = false := by
      cases hc : containsL sep rest <;> simp_all [containsL]
    simp [splitCore, h1, splitCore_not_contains sep hsep rest h2]

theorem splitCore_head_match (sep : List Char) (hsep : sep ≠ []) (c : Char)
    (rest : List Char) (h : isPrefixL sep (c :: rest) = true) :
    splitCore sep 0 (c :: rest) = [] :: splitCore sep (sep.length - 1) rest := by
  simp [splitCore, h, isEmpty_false_of_ne_nil hsep]

theorem splitCore_length_le (sep : List Char) :
    ∀ (skip : Nat) (s x : List Char), x ∈ splitCore sep skip s → x.length ≤ s.length
  | _, [], x => by
    intro hx
    simp [splitCore] at hx
    subst hx
    simp
  | skip+1, c :: rest, x => by
    intro hx
    have := splitCore_length_le sep skip rest x (by simpa [splitCore] using hx)
    simp; omega
  | 0, c :: rest, x => by
    intro hx
    simp only [splitCore] at hx
    split at hx
    · rcases List.mem_cons.mp hx with rfl | hx
      · simp
      · have := splitCore_length_le sep (sep.length - 1) rest x hx
        simp; omega
    · rcases hsplit : splitCore sep 0 rest with _ | ⟨seg, segs⟩
      · exact absurd hsplit (splitCore_ne_nil sep 0 rest)
      · rw [hsplit] at hx
        rcases List.mem_cons.mp hx with rfl | hx
        · have : seg.length ≤ rest.length :=
            splitCore_length_le sep 0 rest seg (by rw [hsplit]; simp)
          simp; omega
        · have : x.length ≤ rest.length :=
            splitCore_length_le sep 0 rest x (by rw [hsplit]; simp [hx])
          simp; omega

theorem splitCore_two_of_contains (sep : List Char) (hsep : sep ≠ []) :
    ∀ s : List Char, containsL sep s = true →
      ∃ a b l, splitCore sep 0 s = a :: b :: l
  | [], h => by
    cases sep with
    | nil => exact absurd rfl hsep
    | cons p ps => simp [containsL, isPrefixL] at h
  | c :: rest, h => by
    cases hp : isPrefixL sep (c :: rest) with
    | true =>
      rcases htl : splitCore sep (sep.length - 1) rest with _ | ⟨b, l⟩
      · exact absurd htl (splitCore_ne_nil sep _ rest)
      · exact ⟨[], b, l, by rw [splitCore_head_match sep hsep c rest hp, htl]⟩
    | false =>
      have h2 : containsL sep rest = true := by
        cases hc : containsL sep rest <;> simp_all [containsL]
      obtain ⟨a, b, l, hab⟩ := splitCore_two_of_contains sep hsep rest h2
      refine ⟨c :: a, b, l, ?_⟩
      simp [splitCore, hp, hab]

theorem splitCore_sandwich (c1 c2 : Char) (hne : c1 ≠ c2) :
    ∀ (X Y : List Char), containsL [c1, c2] X = false →
      splitCore [c1, c2] 0 (X ++ c1 :: c2 :: Y) = X :: splitCore [c1, c2] 0 Y
  | [], Y, _ => by
    have hp : isPrefixL [c1, c2] (c1 :: c2 :: Y) = true := by simp [isPrefixL]
    rw [List.nil_append, splitCore_head_match _ (by simp) _ _ hp]
    rfl
  | x :: X', Y, h => by
    have h2 : containsL [c1, c2] X' = false := by
      cases hc : containsL [c1, c2] X' <;> simp_all [containsL]
    have hx : isPrefixL [c1, c2] (x :: (X' ++ c1 :: c2 :: Y)) = false := by
      cases X' with
      | nil =>
        have hcc : (c2 == c1) = false := by
          simp [Ne.symm hne]
        simp [isPrefixL, hcc]
      | cons x' X'' =>
        have h1 : isPrefixL [c1, c2] (x :: x' :: X'') = false := by
          cases hp : isPrefixL [c1, c2] (x :: x' :: X'') <;> simp_all [containsL]
        simp only [isPrefixL] at h1 ⊢
        simpa using h1
    have ihh := splitCore_sandwich c1 c2 hne X' Y h2
    simp [splitCore, hx, ihh]

theorem containsL_single (c : Char) : ∀ s : List Char, containsL [c] s = true ↔ c ∈ s
  | [] => by simp [containsL, isPrefixL]
  | x :: rest => by
    rw [containsL]
    simp [isPrefixL, containsL_single c rest, List.mem_cons]

theorem length_dropWhileCh_le (p : Char → Bool) : ∀ l : List Char,
    (l.dropWhile p).length ≤ l.length
  | [] => by simp
  | c :: rest => by
    rw [List.dropWhile]
    split
    · have := length_dropWhileCh_le p rest
      simp
      omega
    · simp

theorem trimL_length_le (s : List Char) : (trimL s).length ≤ s.length := by
  unfold trimL
  have h1 := length_dropWhileCh_le isWS s
  have h2 := length_dropWhileCh_le isWS (s.dropWhile isWS).reverse
  simp only [List.length_reverse] at *
  omega

theorem stripSeg_length_le (s : List Char) : (stripSeg s).length ≤ s.length := by
  unfold stripSeg dropTrailingCh dropLeadingCh
  have h1 := trimL_length_le s
  have h2 := length_dropWhileCh_le (· == '<') (trimL s)
  have h3 := length_dropWhileCh_le (· == '>') ((trimL s).dropWhile (· == '<')).reverse
  simp only [List.length_reverse] at *
  omega

theorem isPrefixL_ne_nil {p : Char} {ps s : List Char}
    (h : isPrefixL (p :: ps) s = true) : s ≠ [] := by
  cases s with
  | nil => simp [isPrefixL] at h
  | cons a l => simp

theorem fromTokenBody_congr (t : List Char) (r1 r2 : List Char → Option CairoType)
    (h : ∀ s : List Char, s.length < t.length → r1 s = r2 s) :
    fromTokenBody r1 t = fromTokenBody r2 t := by
  unfold fromTokenBody
  by_cases h1 : trimL t = "felt252".toList
  · simp only [if_pos h1]
  rw [if_neg h1, if_neg h1]
  by_cases h2 : trimL t = "ContractAddress".toList
  · simp only [if_pos h2]
  rw [if_neg h2, if_neg h2]
  by_cases h3 : trimL t = "u8".toList
  · simp only [if_pos h3]
  rw [if_neg h3, if_neg h3]
  by_cases h4 : trimL t = "u16".toList
  · simp only [if_pos h4]
  rw [if_neg h4, if_neg h4]
  by_cases h5 : trimL t = "u32".toList
  · simp only [if_pos h5]
  rw [if_neg h5, if_neg h5]
  by_cases h6 : trimL t = "u64".toList
  · simp only [if_pos h6]
  rw [if_neg h6, if_neg h6]
  by_cases h7 : trimL t = "u128".toList
  · simp only [if_pos h7]
  rw [if_neg h7, if_neg h7]
  by_cases h8 : trimL t = "u256".toList
  · simp only [if_pos h8]
  rw [if_neg h8, if_neg h8]
  by_cases h9 : isPrefixL legacyMapMarker (trimL t) = true
  case neg =>
    simp only [Bool.not_eq_true] at h9
    rw [h9]
    simp
  rw [if_pos h9, if_pos h9]
  have hvne : trimL t ≠ [] := isPrefixL_ne_nil (by simpa [legacyMapMarker] using h9)
  obtain ⟨c, rest, hcons⟩ : ∃ c rest, trimL t = c :: rest := by
    cases hv : trimL t with
    | nil => exact absurd hv hvne
    | cons c rest => exact ⟨c, rest, rfl⟩
  have htpos : 0 < t.length := by
    have h0 := trimL_length_le t
    rw [hcons] at h0
    simp at h0
    omega
  have hhead := splitCore_head_match legacyMapMarker (by simp [legacyMapMarker])
    c rest (by rw [← hcons]; exact h9)
  rcases hsp : splitOnL legacyMapMarker (trimL t) with _ | ⟨s0, tl⟩
  · rfl
  rcases tl with _ | ⟨s1, tl'⟩
  · rfl
  rw [hcons, splitOnL, hhead] at hsp
  injection hsp with hs0 htail
  have hs1len : s1.length ≤ rest.length := by
    refine splitCore_length_le legacyMapMarker (legacyMapMarker.length - 1) rest s1 ?_
    rw [htail]
    simp
  have hrest : rest.length < t.length := by
    have h0 := trimL_length_le t
    rw [hcons] at h0
    simp at h0
    omega
  dsimp only
  rw [h (stripSeg s0) (by rw [← hs0]; simpa using htpos),
    h (stripSeg s1) (by have := stripSeg_length_le s1; omega)]

theorem fromTokenF_stable (n : Nat) : ∀ t : List Char, t.length ≤ n →
    ∀ f g : Nat, t.length < f → t.length < g → fromTokenF f t = fromTokenF g t := by
  induction n with
  | zero =>
    intro t hlen f g hf hg
    have ht : t = [] := List.length_eq_zero.mp (by omega)
    subst ht
    match f, g with
    | f'+1, g'+1 => rfl
  | succ m ih =>
    intro t hlen f g hf hg
    match f, g with
    | f'+1, g'+1 =>
      show fromTokenBody (fromTokenF f') t = fromTokenBody (fromTokenF g') t
      refine fromTokenBody_congr t _ _ ?_
      intro s hs
      exact ih s (by omega) f' g' (by omega) (by omega)

theorem fromToken_eq_body (t : List Char) :
    CairoType.fromToken t = fromTokenBody CairoType.fromToken t := by
  show fromTokenBody (fromTokenF t.length) t = fromTokenBody CairoType.fromToken t
  refine fromTokenBody_congr t _ _ ?_
  intro s hs
  exact fromTokenF_stable t.length s (by omega) t.length (s.length + 1) (by omega) (by omega)

theorem postgres_fromToken_string (v : List Char) : PostgresType.fromToken v = .string := by
  unfold PostgresType.fromToken
  split_ifs <;> rfl

theorem takeLetters_all : ∀ s : List Char, ((takeLetters s).1).all isAsciiAlpha = true
  | [] => rfl
  | c :: rest => by
    by_cases hc : isAsciiAlpha c = true
    · simp [takeLetters, hc, takeLetters_all rest]
    · simp only [Bool.not_eq_true] at hc
      simp [takeLetters, hc]

theorem takeLetters_append : ∀ nm : List Char, nm.all isAsciiAlpha = true →
    ∀ (c : Char) (r : List Char), isAsciiAlpha c = false →
      takeLetters (nm ++ c :: r) = (nm, c :: r)
  | [], _, c, r, hc => by simp [takeLetters, hc]
  | a :: nm', h, c, r, hc => by
    rw [List.all_cons, Bool.and_eq_true] at h
    obtain ⟨ha, hn'⟩ := h
    simp [takeLetters, ha, takeLetters_append nm' hn' c r hc]

theorem lastSplitBefore_append_self (c : Char) : ∀ xs : List Char,
    lastSplitBefore c (xs ++ [c]) = some xs
  | [] => by simp [lastSplitBefore]
  | x :: xs' => by
    simp [lastSplitBefore, lastSplitBefore_append_self c xs']

theorem matchAt_shape (nm middle : List Char) (hne : nm ≠ [])
    (hall : nm.all isAsciiAlpha = true) :
    matchAt (fnSpaceMarker ++ (nm ++ ('(' :: (middle ++ [')'])))) = some (nm, middle) := by
  have htl : takeLetters (List.drop 3 (fnSpaceMarker ++ (nm ++ ('(' :: (middle ++ [')'])))))
      = (nm, '(' :: (middle ++ [')'])) := by
    rw [show List.drop 3 (fnSpaceMarker ++ (nm ++ ('(' :: (middle ++ [')']))))
        = nm ++ '(' :: (middle ++ [')']) from rfl]
    exact takeLetters_append nm hall '(' (middle ++ [')']) rfl
  unfold matchAt
  rw [if_pos (isPrefixL_append_self fnSpaceMarker _), htl]
  dsimp only
  rw [if_neg hne]
  split
  · rename_i rest3 heq
    injection heq with h1 h2
    subst h2
    rw [lastSplitBefore_append_self ')' middle]
  · rename_i hns
    exact absurd rfl (hns (middle ++ [')']))

theorem matchAt_name {s nm args : List Char}
    (h : matchAt s = some (nm, args)) : nm ≠ [] ∧ nm.all isAsciiAlpha = true := by
  unfold matchAt at h
  split at h
  · split at h
    · simp at h
    · split at h
      · split at h
        · simp only [Option.some.injEq, Prod.mk.injEq] at h
          obtain ⟨hnm, -⟩ := h
          subst hnm
          refine ⟨by assumption, takeLetters_all _⟩
        · simp at h
      · simp at h
  · simp at h

theorem findEventMatch_name {l nm args : List Char}
    (h : findEventMatch l = some (nm, args)) : nm ≠ [] ∧ nm.all isAsciiAlpha = true := by
  induction l with
  | nil => simp [findEventMatch] at h
  | cons c rest ih =>
    rw [findEventMatch] at h
    rcases hm : matchAt (c :: rest) with _ | r
    · rw [hm] at h
      exact ih h
    · rw [hm] at h
      simp at h
      subst h
      exact matchAt_name hm

theorem fromLine_name {l : List Char} {ev : CairoEvent}
    (h : CairoEvent.fromLine l = some ev) : ev.name ≠ [] ∧ ev.name.all isAsciiAlpha = true := by
  unfold CairoEvent.fromLine at h
  rcases hf : findEventMatch l with _ | ⟨nm, args⟩
  · rw [hf] at h; simp at h
  · rw [hf] at h
    dsimp only at h
    rcases ha : argsOf (splitOnL commaSpaceSep args) with _ | arglist
    · rw [ha] at h; simp at h
    · rw [ha] at h
      simp only [Option.some.injEq] at h
      subst h
      exact findEventMatch_name hf

theorem argToken_parse (a T : List Char) (ha : containsL colonSpaceSep a = false) :
    CairoArgument.fromToken (a ++ (':' :: ' ' :: T)) = some ⟨a, PostgresType.fromToken T⟩ := by
  unfold CairoArgument.fromToken
  have hcs : colonSpaceSep = [':', ' '] := rfl
  have hsw := splitCore_sandwich ':' ' ' (by decide) a T (by rw [← hcs]; exact ha)
  rcases hT : splitCore [':', ' '] 0 T with _ | ⟨hd, tl⟩
  · exact absurd hT (splitCore_ne_nil _ _ _)
  · rw [hcs, splitOnL, hsw, hT]
    dsimp only
    rw [postgres_fromToken_string, postgres_fromToken_string]

theorem findEventMatch_fn (Y : List Char) (r : List Char × List Char)
    (h : matchAt (fnSpaceMarker ++ Y) = some r) :
    findEventMatch (fnSpaceMarker ++ Y) = some r := by
  show findEventMatch ('f' :: 'n' :: ' ' :: Y) = some r
  rw [findEventMatch, show ('f' :: 'n' :: ' ' :: Y : List Char) = fnSpaceMarker ++ Y from rfl, h]

theorem storageField_no_colon (l : List Char) (h : containsL [':'] (trimL l) = false) :
    storageField l = none := by
  unfold storageField
  rw [splitOnL, splitCore_not_contains [':'] (by simp) (trimL l) h]
  rfl

theorem mem_of_mem_dropWhileCh {p : Char → Bool} {x : Char} :
    ∀ {l : List Char}, x ∈ l.dropWhile p → x ∈ l
  | [], h => h
  | c :: rest, h => by
    rw [List.dropWhile] at h
    split at h
    · exact List.mem_cons_of_mem c (mem_of_mem_dropWhileCh h)
    · exact h

theorem mem_of_mem_trimL {x : Char} {s : List Char} (h : x ∈ trimL s) : x ∈ s := by
  unfold trimL at h
  rw [List.mem_reverse] at h
  have h1 := mem_of_mem_dropWhileCh h
  rw [List.mem_reverse] at h1
  exact mem_of_mem_dropWhileCh h1

theorem fromLines_none_of_mem {l : List Char} (hf : storageField l = none) :
    ∀ {ls : List (List Char)}, l ∈ ls → CairoStorage.fromLines ls = none
  | hd :: tl, hmem => by
    rcases List.mem_cons.mp hmem with rfl | hmem'
    · rw [CairoStorage.fromLines, hf]
    · rw [CairoStorage.fromLines, fromLines_none_of_mem hf hmem']
      rcases storageField hd <;> rfl

theorem fromLines_length : ∀ {ls : List (List Char)} {fs : List (List Char × CairoType)},
    CairoStorage.fromLines ls = some fs → fs.length = ls.length
  | [], fs, h => by
    rw [CairoStorage.fromLines] at h
    simp at h
    subst h
    rfl
  | hd :: tl, fs, h => by
    rw [CairoStorage.fromLines] at h
    rcases hh : storageField hd with _ | f
    · rw [hh] at h; simp at h
    · rw [hh] at h
      rcases ht : CairoStorage.fromLines tl with _ | fs'
      · rw [ht] at h; simp at h
      · rw [ht] at h
        simp only [Option.some.injEq] at h
        subst h
        have := fromLines_length ht
        simp [this]

theorem scanGo_shift {l : List Char} {rest : List (List Char)} {k : Nat}
    {evs : List CairoEvent} {ev : CairoEvent}
    (h : ev ∈ evs ∨ ∃ j, j < rest.length ∧ ev.definition_at = (k+1) + j + 1 ∧
      ∃ ev0, CairoEvent.fromLine (rest.getD j []) = some ev0 ∧
        ev = ev0.defininedAt ((k+1) + j + 1)) :
    ev ∈ evs ∨ ∃ j, j < (l :: rest).length ∧ ev.definition_at = k + j + 1 ∧
      ∃ ev0, CairoEvent.fromLine ((l :: rest).getD j []) = some ev0 ∧
        ev = ev0.defininedAt (k + j + 1) := by
  rcases h with h | ⟨j, hj, hdef, ev0, hfl, hset⟩
  · exact Or.inl h
  · refine Or.inr ⟨j + 1, by simp; omega, by omega, ev0, ?_, ?_⟩
    · exact hfl
    · rw [show k + (j + 1) + 1 = (k + 1) + j + 1 from by omega]
      exact hset

theorem scanGo_ok_mem : ∀ (ls : List (List Char)) (k : Nat) (sdone : Bool) (mode : ScanMode)
    (evs res : List CairoEvent), scanGo k sdone mode evs ls = .ok res → ∀ ev ∈ res,
    ev ∈ evs ∨ ∃ j, j < ls.length ∧ ev.definition_at = k + j + 1 ∧
      ∃ ev0, CairoEvent.fromLine (ls.getD j []) = some ev0 ∧
        ev = ev0.defininedAt (k + j + 1) := by
  intro ls
  induction ls with
  | nil =>
    intro k sdone mode evs res h ev hev
    rcases mode with _ | ⟨pending, buf⟩ | _
    · rw [scanGo.eq_def] at h
      dsimp only at h
      simp only [ScanOutcome.ok.injEq] at h
      subst h
      exact Or.inl hev
    · rw [scanGo.eq_def] at h
      dsimp only at h
      simp at h
    · rw [scanGo.eq_def] at h
      dsimp only at h
      simp only [ScanOutcome.ok.injEq] at h
      subst h
      exact Or.inl hev
  | cons l rest ih =>
    intro k sdone mode evs res h ev hev
    rw [scanGo.eq_def] at h
    rcases mode with _ | ⟨pending, buf⟩ | _
    · -- normal mode
      dsimp only at h
      by_cases hss : (containsL structStorageMarker l && !sdone) = true
      · rw [if_pos hss] at h
        exact scanGo_shift (ih (k+1) sdone (.drain l []) evs res h ev hev)
      · rw [if_neg hss] at h
        by_cases hem : containsL eventMarker l = true
        · rw [if_pos hem] at h
          exact scanGo_shift (ih (k+1) sdone .expectSig evs res h ev hev)
        · rw [if_neg hem] at h
          exact scanGo_shift (ih (k+1) sdone .normal evs res h ev hev)
    · -- drain mode
      dsimp only at h
      by_cases hcb : containsL closeBraceMarker l = true
      · rw [if_pos hcb] at h
        rcases hfl : CairoStorage.fromLines buf with _ | fs
        · rw [hfl] at h; simp at h
        · rw [hfl] at h
          dsimp only at h
          by_cases hpm : containsL eventMarker pending = true
          · rw [if_pos hpm] at h
            exact scanGo_shift (ih (k+1) true .expectSig evs res h ev hev)
          · rw [if_neg hpm] at h
            exact scanGo_shift (ih (k+1) true .normal evs res h ev hev)
      · rw [if_neg hcb] at h
        exact scanGo_shift (ih (k+1) sdone (.drain pending (buf ++ [l])) evs res h ev hev)
    · -- expectSig mode
      dsimp only at h
      rcases hfl : CairoEvent.fromLine l with _ | ev0
      · rw [hfl] at h; simp at h
      · rw [hfl] at h
        dsimp only at h
        rcases scanGo_shift (ih (k+1) sdone .normal (evs ++ [ev0.defininedAt (k+1)]) res h ev hev)
          with hmem | hex
        · rcases List.mem_append.mp hmem with hmem2 | hnew
          · exact Or.inl hmem2
          · simp only [List.mem_singleton] at hnew
            subst hnew
            refine Or.inr ⟨0, by simp, by simp [CairoEvent.defininedAt], ev0, hfl, rfl⟩
        · exact Or.inr hex

theorem replace_strip_ext : ∀ base : List Char,
    containsL dotCairoExt (base ++ ['.', 'c', 'a', 'i', 'r']) = false →
    replaceAllL dotCairoExt [] (base ++ dotCairoExt) = base
  | [], _ => by rfl
  | b :: base', h => by
    simp only [List.cons_append, containsL, Bool.or_eq_false_iff] at h
    obtain ⟨hpf, h2⟩ := h
    have hsplit : isPrefixL dotCairoExt (b :: (base' ++ dotCairoExt)) = false := by
      have hx : b :: (base' ++ dotCairoExt)
          = (b :: (base' ++ ['.', 'c', 'a', 'i', 'r'])) ++ ['o'] := by
        rw [show dotCairoExt = ['.', 'c', 'a', 'i', 'r'] ++ ['o'] from rfl]
        simp
      rw [hx, isPrefixL_stable dotCairoExt _ ['o'] (by simp [dotCairoExt])]
      exact hpf
    rw [show (b :: base') ++ dotCairoExt = b :: (base' ++ dotCairoExt) from rfl]
    rw [replaceAllL, replaceCore, if_neg (by simp [hsplit])]
    have ih := replace_strip_ext base' h2
    rw [replaceAllL] at ih
    rw [ih]

/- Claim theorems. -/

/-- Claim C1 (code bug): a file whose storage block is opened but never
closed does NOT terminate the scan: parse_cairo_file loops forever (the
inner while polls an exhausted iterator while storage stays none),
modelled as the hang outcome; events found earlier in the file are lost
with it, both for a bare unterminated block and for one preceded by a
recorded event. -/
theorem unterminated_storage_scan_hangs :
    parseCairoLines ["struct Storage".toList] = ScanOutcome.hang ∧
    parseCairoLines ["#[event]".toList, "fn A(x: y)".toList, "struct Storage".toList]
      = ScanOutcome.hang := by
  constructor <;> rfl

/-- Claim C2 (code bug): CairoType::from panics on every LegacyMap token,
flat or nested, because value.split("LegacyMap") yields the empty string
as its first segment and the recursive resolution of the empty string hits
the Unknown-type panic.  The claim (and the test test_parse_cairo_type of
parser.rs) expects Map(address, largeUint) instead. -/
theorem legacymap_token_resolution_panics :
    CairoType.fromToken "LegacyMap<ContractAddress, u256>".toList = none ∧
    CairoType.fromToken
      "LegacyMap<ContractAddress, LegacyMap<ContractAddress, u256>>".toList = none := by
  constructor <;> rfl

/-- Claim C3, counterexample: a file whose event argument carries the
unrecognized type token NotAType is processed to completion with the
argument typed String - resolution of an unknown event-argument type is
not a fatal error and does not abort the file. -/
theorem unknown_argument_type_accepted :
    parseCairoLines ["#[event]".toList, "fn A(x: NotAType)".toList]
      = ScanOutcome.ok [⟨"A".toList, [⟨"x".toList, PostgresType.string⟩], 2, []⟩] := by
  decide

/-- Claim C3 (amended): only storage-field resolution (CairoType::from)
treats an unrecognized token - neither one of the eight primitives after
trimming nor a token starting with LegacyMap - as fatal (panic, modelled
none); event-argument resolution (PostgresType::from) never fails and maps
every token to String. -/
theorem unknown_type_fatal_only_in_storage :
    (∀ t : List Char,
      trimL t ≠ "felt252".toList → trimL t ≠ "ContractAddress".toList →
      trimL t ≠ "u8".toList → trimL t ≠ "u16".toList → trimL t ≠ "u32".toList →
      trimL t ≠ "u64".toList → trimL t ≠ "u128".toList → trimL t ≠ "u256".toList →
      isPrefixL legacyMapMarker (trimL t) = false →
      CairoType.fromToken t = none) ∧
    (∀ t : List Char, PostgresType.fromToken t = PostgresType.string) := by
  constructor
  · intro t h1 h2 h3 h4 h5 h6 h7 h8 h9
    rw [fromToken_eq_body]
    unfold fromTokenBody
    rw [if_neg h1, if_neg h2, if_neg h3, if_neg h4, if_neg h5, if_neg h6, if_neg h7,
      if_neg h8, if_neg (by simp [h9])]
  · exact postgres_fromToken_string

/-- Witness for the amended C3 at the concrete token NotAType. -/
theorem unknown_type_fatal_only_in_storage_witness :
    CairoType.fromToken "NotAType".toList = none ∧
    PostgresType.fromToken "NotAType".toList = PostgresType.string :=
  ⟨unknown_type_fatal_only_in_storage.1 "NotAType".toList (by decide) (by decide)
    (by decide) (by decide) (by decide) (by decide) (by decide) (by decide) (by decide),
   unknown_type_fatal_only_in_storage.2 "NotAType".toList⟩

/-- Claim C4 (confirmed): a valid signature line of the exact shape
fn Name(a: T1, b: T2) - Name a nonempty ASCII-letter identifier, the
argument names free of the ": " separator and each "name: type" token free
of the ", " separator - parses to an event named Name whose two arguments
keep source order a then b, each token split on the first ": " into the
name and the raw type token, whose resolution (PostgresType::from) gives
the argument type. -/
theorem valid_two_arg_signature_parses (nm a T1 b T2 : List Char)
    (hne : nm ≠ []) (hall : nm.all isAsciiAlpha = true)
    (ha : containsL colonSpaceSep a = false)
    (hb : containsL colonSpaceSep b = false)
    (hA : containsL commaSpaceSep (a ++ (':' :: ' ' :: T1)) = false)
    (hB : containsL commaSpaceSep (b ++ (':' :: ' ' :: T2)) = false) :
    CairoEvent.fromLine (fnSpaceMarker ++ (nm ++ ('(' ::
        (((a ++ (':' :: ' ' :: T1)) ++ (',' :: ' ' :: (b ++ (':' :: ' ' :: T2)))) ++ [')']))))
      = some ⟨nm, [⟨a, PostgresType.fromToken T1⟩, ⟨b, PostgresType.fromToken T2⟩], 0, []⟩ := by
  have hmatch := matchAt_shape nm
    ((a ++ (':' :: ' ' :: T1)) ++ (',' :: ' ' :: (b ++ (':' :: ' ' :: T2)))) hne hall
  have hfind := findEventMatch_fn _ _ hmatch
  unfold CairoEvent.fromLine
  rw [hfind]
  dsimp only
  have hcs : commaSpaceSep = [',', ' '] := rfl
  have hsw := splitCore_sandwich ',' ' ' (by decide) (a ++ (':' :: ' ' :: T1))
    (b ++ (':' :: ' ' :: T2)) (by rw [← hcs]; exact hA)
  have hB1 : splitCore [',', ' '] 0 (b ++ (':' :: ' ' :: T2)) = [b ++ (':' :: ' ' :: T2)] :=
    splitCore_not_contains [',', ' '] (by simp) _ (by rw [← hcs]; exact hB)
  rw [splitOnL, hcs, hsw, hB1]
  rw [argsOf, argToken_parse a T1 ha]
  rw [argsOf, argToken_parse b T2 hb]
  rw [argsOf]

/-- Witness for C4 at fn Transfer(from: ContractAddress, to: u256). -/
theorem valid_two_arg_signature_parses_witness :
    CairoEvent.fromLine (fnSpaceMarker ++ ("Transfer".toList ++ ('(' ::
        ((("from".toList ++ (':' :: ' ' :: "ContractAddress".toList)) ++
          (',' :: ' ' :: ("to".toList ++ (':' :: ' ' :: "u256".toList)))) ++ [')']))))
      = some ⟨"Transfer".toList,
          [⟨"from".toList, PostgresType.fromToken "ContractAddress".toList⟩,
           ⟨"to".toList, PostgresType.fromToken "u256".toList⟩], 0, []⟩ :=
  valid_two_arg_signature_parses "Transfer".toList "from".toList "ContractAddress".toList
    "to".toList "u256".toList (by decide) (by decide) (by decide) (by decide)
    (by decide) (by decide)

/-- Claim C5, counterexample: a storage block whose buffered line balance
has no colon makes the scan panic (index out of bounds on the split) when
the block closes, instead of the line being ignored. -/
theorem storage_line_without_colon_panics :
    parseCairoLines ["struct Storage".toList, "balance".toList, "\x7d".toList]
      = ScanOutcome.panic := by
  decide

/-- Claim C5 (amended): when the storage block closes, each buffered line
(closing line excluded) is split on ":"; a buffered line with no colon
after trimming makes the conversion panic (the v[1] index), aborting the
scan rather than being ignored; when the conversion succeeds it yields
exactly one field per buffered line. -/
theorem storage_buffer_parse (ls : List (List Char)) :
    (∀ l ∈ ls, (':' : Char) ∉ l → CairoStorage.fromLines ls = none) ∧
    (∀ fs, CairoStorage.fromLines ls = some fs → fs.length = ls.length) := by
  constructor
  · intro l hl hnc
    have hcc : containsL [':'] (trimL l) = false := by
      cases hc : containsL [':'] (trimL l)
      · rfl
      · exact absurd (mem_of_mem_trimL ((containsL_single ':' (trimL l)).mp hc)) hnc
    exact fromLines_none_of_mem (storageField_no_colon l hcc) hl
  · intro fs h
    exact fromLines_length h

/-- Witness for the amended C5: the colonless buffer line balance panics,
and a successful conversion of one line yields one field. -/
theorem storage_buffer_parse_witness :
    CairoStorage.fromLines ["balance".toList] = none ∧
    ∀ fs, CairoStorage.fromLines ["x: u8".toList] = some fs → fs.length = 1 :=
  ⟨(storage_buffer_parse ["balance".toList]).1 "balance".toList (by decide) (by decide),
   fun fs h => (storage_buffer_parse ["x: u8".toList]).2 fs h⟩

/-- Claim C6 (confirmed): every event the scanner records carries in
definition_at the 1-based number of its signature line: the input line at
that position (counting every consumed line, including lines drained
inside the storage block) parses to exactly this event via
CairoEvent::from stamped with definined_at. -/
theorem declared_at_is_signature_line_number (ls : List (List Char))
    (res : List CairoEvent) (h : parseCairoLines ls = ScanOutcome.ok res) :
    ∀ ev ∈ res, 1 ≤ ev.definition_at ∧ ev.definition_at ≤ ls.length ∧
      ∃ ev0, CairoEvent.fromLine (ls.getD (ev.definition_at - 1) []) = some ev0 ∧
        ev = ev0.defininedAt ev.definition_at := by
  intro ev hev
  rcases scanGo_ok_mem ls 0 false .normal [] res h ev hev with
    hmem | ⟨j, hj, hdef, ev0, hfl, hset⟩
  · simp at hmem
  · refine ⟨by omega, by omega, ev0, ?_, ?_⟩
    · rw [show ev.definition_at - 1 = j from by omega]
      exact hfl
    · rw [show ev.definition_at = 0 + j + 1 from hdef]
      exact hset

/-- Witness for C6 on a two-line file: the recorded event has
definition_at 2 and line 2 parses to it. -/
theorem declared_at_is_signature_line_number_witness :
    1 ≤ (2 : Nat) ∧ (2 : Nat) ≤ ([ "#[event]".toList, "fn A(x: y)".toList ] :
      List (List Char)).length ∧
    ∃ ev0, CairoEvent.fromLine (([ "#[event]".toList, "fn A(x: y)".toList ] :
        List (List Char)).getD (2 - 1) []) = some ev0 ∧
      (⟨"A".toList, [⟨"x".toList, PostgresType.string⟩], 2, []⟩ : CairoEvent)
        = ev0.defininedAt 2 := by
  have h := declared_at_is_signature_line_number
    ["#[event]".toList, "fn A(x: y)".toList]
    [⟨"A".toList, [⟨"x".toList, PostgresType.string⟩], 2, []⟩] (by decide)
    ⟨"A".toList, [⟨"x".toList, PostgresType.string⟩], 2, []⟩ (by simp)
  simpa using h

/-- Claim C7, counterexample: when the file ends with two consecutive
event-marker lines, the final marker line is consumed as the signature
line of the previous marker, the regex finds no match and the scan panics
instead of ignoring the trailing marker and producing the unit. -/
theorem trailing_marker_after_marker_panics :
    parseCairoLines ["#[event]".toList, "#[event]".toList] = ScanOutcome.panic := by
  decide

/-- Claim C7 (amended): when the scanner reaches the last line in normal
scanning mode (the line is not consumed as a signature line of a
preceding marker nor inside a storage block) and that line contains
"#[event]" but does not open a storage block (no "struct Storage", or the
storage block is already closed), the marker is ignored: no event is
recorded and the scan ends with exactly the events found so far. -/
theorem trailing_event_marker_ignored (k : Nat) (sdone : Bool)
    (evs : List CairoEvent) (l : List Char)
    (hm : containsL eventMarker l = true)
    (hs : containsL structStorageMarker l = false ∨ sdone = true) :
    scanGo k sdone .normal evs [l] = .ok evs := by
  rw [scanGo.eq_def]
  dsimp only
  have hcond : (containsL structStorageMarker l && !sdone) = false := by
    rcases hs with h | h <;> simp [h]
  rw [hcond]
  simp only [Bool.false_eq_true, if_false, hm, if_true]
  rw [scanGo.eq_def]

/-- Witness for the amended C7: a file whose single line is the event
marker produces the empty unit. -/
theorem trailing_event_marker_ignored_witness :
    scanGo 0 false .normal [] ["#[event]".toList] = ScanOutcome.ok [] :=
  trailing_event_marker_ignored 0 false [] "#[event]".toList (by decide)
    (Or.inl (by decide))

/-- Claim C8, counterexample: for the legal input file .cairo.cairo (its
extension is cairo, its stem is .cairo, nonempty), the produced unit name
is empty - String::replace removes every ".cairo" occurrence, not just the
extension - so the name is neither the capitalized stem nor nonempty. -/
theorem unit_name_not_capitalized_stem :
    fileDomainName ".cairo.cairo".toList = [] ∧
    specFileStem ".cairo.cairo".toList = ".cairo".toList ∧
    capitalize (specFileStem ".cairo.cairo".toList) ≠ fileDomainName ".cairo.cairo".toList := by
  refine ⟨by decide, by decide, by decide⟩

/-- Claim C8 (amended): the unit name is the last path component with
every occurrence of ".cairo" removed, first letter capitalized; whenever
".cairo" occurs in the file name only as the final extension (and the
name has no slash), this is exactly the capitalized stem. -/
theorem unit_name_strips_every_cairo_occurrence (base : List Char)
    (hslash : containsL ['/'] base = false)
    (honly : containsL dotCairoExt (base ++ ['.', 'c', 'a', 'i', 'r']) = false) :
    fileDomainName (base ++ dotCairoExt) = capitalize base := by
  unfold fileDomainName
  have hs : containsL ['/'] (base ++ dotCairoExt) = false := by
    cases hc : containsL ['/'] (base ++ dotCairoExt)
    · rfl
    · have hmem := (containsL_single '/' _).mp hc
      rw [List.mem_append] at hmem
      rcases hmem with hmem | hmem
      · rw [(containsL_single '/' base).mpr hmem] at hslash
        exact absurd hslash (by simp)
      · simp [dotCairoExt] at hmem
  rw [splitOnL, splitCore_not_contains ['/'] (by simp) _ hs]
  rw [show lastOfD [] [base ++ dotCairoExt] = base ++ dotCairoExt from rfl]
  rw [replace_strip_ext base honly]

/-- Witness for the amended C8 at the path token.cairo. -/
theorem unit_name_strips_every_cairo_occurrence_witness :
    fileDomainName ("token".toList ++ dotCairoExt) = capitalize "token".toList :=
  unit_name_strips_every_cairo_occurrence "token".toList (by decide) (by decide)

/-- Claim C9 (confirmed): event-argument type conversion is the constant
String function - PostgresType::from sends every raw token to String -
and every argument token containing the ": " separator parses to an
argument typed String, whatever the raw type token is. -/
theorem event_argument_type_always_string :
    (∀ t : List Char, PostgresType.fromToken t = PostgresType.string) ∧
    (∀ tok : List Char, containsL colonSpaceSep tok = true →
      ∃ n, CairoArgument.fromToken tok = some ⟨n, PostgresType.string⟩) := by
  constructor
  · exact postgres_fromToken_string
  · intro tok hc
    obtain ⟨x, y, l, hsp⟩ :=
      splitCore_two_of_contains colonSpaceSep (by decide) tok hc
    refine ⟨x, ?_⟩
    unfold CairoArgument.fromToken
    rw [splitOnL, hsp]
    dsimp only
    rw [postgres_fromToken_string]

/-- Witness for C9 at the token x: u256. -/
theorem event_argument_type_always_string_witness :
    ∃ n, CairoArgument.fromToken "x: u256".toList = some ⟨n, PostgresType.string⟩ :=
  event_argument_type_always_string.2 "x: u256".toList (by decide)

/-- Claim C10 (confirmed): every event declaration the signature parser
accepts has a nonempty name made only of ASCII letters (the regex class
[a-zA-Z]+), and the line fn Transfer_v2(from: ContractAddress) - whose
name contains an underscore and which contains no other substring of the
fn name(args) shape - is rejected (the captures unwrap panics). -/
theorem event_names_are_ascii_letters :
    (∀ (l : List Char) (ev : CairoEvent), CairoEvent.fromLine l = some ev →
      ev.name ≠ [] ∧ ev.name.all isAsciiAlpha = true) ∧
    CairoEvent.fromLine "fn Transfer_v2(from: ContractAddress)".toList = none := by
  constructor
  · intro l ev h
    exact fromLine_name h
  · decide

/-- Witness for C10 at the accepted line fn A(x: y). -/
theorem event_names_are_ascii_letters_witness :
    "A".toList ≠ ([] : List Char) ∧ "A".toList.all isAsciiAlpha = true :=
  event_names_are_ascii_letters.1 "fn A(x: y)".toList
    ⟨"A".toList, [⟨"x".toList, PostgresType.string⟩], 0, []⟩ (by decide)
